import Mathlib

/-!
Verification development for the OneFileForth interpreter
(`src/OneFileForth.c`, revision 00.01.66, hosted 64-bit stack-checked
build: `_WORDSIZE 8`, `HOSTED`, no `NOCHECK`).

Each section embeds the C functions relevant to one claimed property as
executable Lean definitions (translated from the source) and proves or
refutes the property.  Machine integers (`Cell_t`, a 64-bit signed word)
are modelled as `Int` with explicit two's-complement wrap-around where
the C arithmetic can overflow; truncating C division and remainder are
`Int.tdiv` and `Int.tmod`.
-/

namespace OFF

/-- Constant `sz_STACK`: the data/return/user stacks hold this many cells beyond
the base sentinel slot. -/
def sz_STACK : Nat := 32

/-- Constant `FLASH_INIT_VAL` (0xdeadbeef), the sentinel stored at the stack base
slots by `q_reset`. -/
def FLASH_INIT_VAL : Int := 0xdeadbeef

/-- Smallest `Cell_t` value (64-bit signed word, `-2^63`). -/
def cellMin : Int := -9223372036854775808

/-- Largest `Cell_t` value (`2^63 - 1`). -/
def cellMax : Int := 9223372036854775807

/-- Two's-complement wrap-around into the `Cell_t` range (mod `2^64`,
re-centred on `[-2^63, 2^63)`): the arithmetic the hosted 64-bit build
performs on `Cell_t` values that overflow. -/
def wrapCell (x : Int) : Int :=
  (x + 9223372036854775808) % 18446744073709551616 - 9223372036854775808

/-- Model of `Err_t`: the error taxonomy of OneFileForth.c, in declaration order. -/
inductive Err where
  | OK | StackOvr | StackUdr | DivZero | NoInput | BadBase | BadLiteral
  | BufOvr | NullPtr | NoSpace | BadState | UnResolved | CaughtSignal
  | Unsave | NoWord | TknSize | SysCall | BadString | NoFile | InStack
  | Range | Undefined
  deriving DecidableEq, Repr

/-- Model of `State_t`: the interpreter state machine. -/
inductive FState where
  | Interactive | Compiling | Interpret | Immediate | Undefined
  deriving DecidableEq, Repr

/-! ## Number formatting and parsing (str_ntoa / str_literal, claim C4) -/

/-- The global `digits` string `"0123456789abcdefghijklmnopqrstuvwxyz"`. -/
def digits : List Char := "0123456789abcdefghijklmnopqrstuvwxyz".toList

/-- Model of `ch_index( str, c )`: index of the first occurrence of `c`, or -1. -/
def ch_index : List Char → Char → Int
  | [], _ => -1
  | d :: rest, c =>
      if d = c then 0
      else
        let r := ch_index rest c
        if r < 0 then -1 else r + 1

/-- Model of `ch_tolower( b )`: xor 0x20 onto characters between 'A' and 'Z',
identity otherwise (the `b & 0xFF` on the other path is the identity for
ASCII bytes). -/
def ch_tolower (b : Char) : Char :=
  if b ≤ 'Z' ∧ b ≥ 'A' then Char.ofNat (b.toNat ^^^ 0x20) else b

/-- The digit character computed inside `str_ntoa`:
`c = '0' + d ; c = (c > '9') ? c - '9' + 'a' - 1 : c`. -/
def ntoaDigitChar (d : Int) : Char :=
  let c : Int := 48 + d
  let c2 : Int := if c > 57 then c - 57 + 97 - 1 else c
  Char.ofNat c2.toNat

/-- The do-while digit loop of `str_ntoa`, least significant digit first:
`do { c = digit(n % radix) ; buf[i++] = c ; n /= radix ; } while (n != 0)`.
For a radix of at least 2 and a 64-bit `n` the loop runs at most 64
times; the fuel argument is only a recursion bound, 66 is always enough
at the call site below. -/
def ntoaLoop : Nat → Int → Int → List Char
  | 0, _, _ => []
  | fuel + 1, n, radix =>
      let c := ntoaDigitChar (Int.tmod n radix)
      let n2 := Int.tdiv n radix
      if n2 = 0 then [c] else c :: ntoaLoop fuel n2 radix

/-- Model of `str_ntoa( dst, dlen, val, radix, isSigned )`: the string written to
`dst` (most significant digit first, with a leading minus exactly when
signed and negative), or `err_BufOvr` when the digit count `i` exceeds
`dlen`.  The C negation `n = -1 * n` wraps on `Cell_t`. -/
def str_ntoaM (dlen : Int) (val : Int) (radix : Int) (isSigned : Bool) :
    Except Err (List Char) :=
  let sign : Bool := isSigned && decide (val < 0)
  let n0 : Int := if sign then wrapCell (-1 * val) else val
  let buf := ntoaLoop 66 n0 radix
  if (buf.length : Int) > dlen then .error .BufOvr
  else if sign then .ok ('-' :: buf.reverse)
  else .ok buf.reverse

/-- The digit-accumulation loop of `str_literal`:
`digit = ch_index(digits, ch_tolower(*p++)) ; if (digit < 0 || digit >
base-1) throw err_BadLiteral ; ret *= base ; ret += digit`, with `Cell_t`
arithmetic. -/
def literalLoop : List Char → Int → Int → Except Err Int
  | [], _, ret => .ok ret
  | c :: p, base, ret =>
      let digit := ch_index digits (ch_tolower c)
      if digit < 0 ∨ digit > base - 1 then .error .BadLiteral
      else literalLoop p base (wrapCell (wrapCell (ret * base) + digit))

/-- The leading `switch (*p++)` of `str_literal`: sign characters, `$`
(hex), `0x`/`0X` (hex), leading `0` (octal); anything else restarts at
the beginning of the token.  Returns (sign, base, remaining chars). -/
def literalSwitch (tkn : List Char) (radix : Int) : Int × Int × List Char :=
  match tkn with
  | [] => (1, radix, tkn)
  | c :: rest =>
      if c = '-' then (-1, radix, rest)
      else if c = '+' then (1, radix, rest)
      else if c = '$' then (1, 16, rest)
      else if c = '0' then
        match rest with
        | x :: rest2 => if x = 'x' ∨ x = 'X' then (1, 16, rest2) else (1, 8, rest)
        | [] => (1, 8, rest)
      else (1, radix, tkn)

/-- Model of `str_literal( tkn, radix )`: signed numeric parse.  The radix is
checked only against `str_length(digits) = 36`; the final `ret *= sign`
wraps on `Cell_t`. -/
def str_literalM (tkn : List Char) (radix : Int) : Except Err Int :=
  if radix > 36 then .error .BadBase
  else
    let spb := literalSwitch tkn radix
    match literalLoop spb.2.2 spb.2.1 0 with
    | .error e => .error e
    | .ok ret => .ok (wrapCell (ret * spb.1))

/-! ## The stack / error machine (claims C2, C3, C5, C6, C7)

The data stack is the C array `Cell_t stack[sz_STACK+1]` with `tos`
pointing at `stack[sp]`; `sp = 0` is the empty-stack base slot holding a
sentinel, `push` is `*(++tos) = x`, `pop` is `*(tos--)`.  The cells are
modelled as a total function so that out-of-range indices (which the C
writes past the array) remain expressible.  Likewise for the return
stack.  The remaining fields are the process-wide globals the claims
mention. -/

/-- Pointwise store into a memory modelled as a function. -/
def memWrite (mem : Int → Int) (a : Int) (v : Int) : Int → Int :=
  fun x => if x = a then v else mem x

structure M where
  sp : Int
  mem : Int → Int
  rsp : Int
  rmem : Int → Int
  base : Int
  promptVal : Int
  trace : Int
  state : FState
  err : Err
  errLoc : String
  sigval : Int
  tbNext : Nat

def SIGINT : Int := 2

def SIGSEGV : Int := 11

/-- Model of `throw( x )` = `err_throw( __FUNCTION__, __LINE__, x )`: formats the
location into a scratch buffer drawn from the temp queue (advancing its
next index), records the location and the error code, and returns. -/
def err_throwM (whence : String) (e : Err) (m : M) : M :=
  { m with tbNext := (m.tbNext + 1) % 8, errLoc := whence, err := e }

/-- How `checkstack` comes back: the check passed (returned 1), the
check failed and returned 0 (the `chk` macro then makes the calling
primitive return early), or — argument underflow on the hosted build —
it does not return at all but `longjmp( env, rst_checkstack )`. -/
inductive ChkRes where
  | ok | fail | jmp
  deriving DecidableEq, Repr

/-- Model of `checkstack( n, fun )`: for `n > 0` compare the depth (obtained by
`depth()` + `pop()`, whose push leaves a scratch write at `stack[sp+1]`)
against `n` and on underflow print, raise err_StackUdr and longjmp; for
`n = 0` check `tos` against both ends of the stack array, raising
err_StackUdr / err_StackOvr and returning 0.  No overflow check exists
on the `n > 0` path. -/
def checkstackM (n : Int) (m : M) : M × ChkRes :=
  if n > 0 then
    let d := m.sp
    let m1 := { m with mem := memWrite m.mem (m.sp + 1) m.sp }
    if d < n then (err_throwM "checkstack" .StackUdr m1, .jmp)
    else (m1, .ok)
  else
    if m.sp < 0 then (err_throwM "checkstack" .StackUdr m, .fail)
    else if m.sp > (sz_STACK : Int) then (err_throwM "checkstack" .StackOvr m, .fail)
    else (m, .ok)

/-- Model of `q_reset()`: clears `sigval`, re-installs the signal handlers, sets
base 10 (`decimal()`), prompt 0, resets both stack pointers to the base
slot writing the `FLASH_INIT_VAL` sentinel there, clears the error code
and sets the state to Interactive.  `Trace` is not touched. -/
def q_resetM (m : M) : M :=
  { m with sigval := 0, base := 10, promptVal := 0,
           sp := 0, mem := memWrite m.mem 0 FLASH_INIT_VAL,
           rsp := 0, rmem := memWrite m.rmem 0 FLASH_INIT_VAL,
           err := .OK, state := .Interactive }

/-- Model of `Leave()`: zero the top return-stack cell when the return stack is
above its base. -/
def LeaveM (m : M) : M :=
  if m.rsp > 0 then { m with rmem := memWrite m.rmem m.rsp 0 } else m

/-- Model of `dump()`: prints the Forth backtrace, popping the return stack until
it reaches the base. -/
def dumpM (m : M) : M := { m with rsp := 0 }

/-- How control leaves `catch` or the signal handler: normal return,
`longjmp( env, code )` into the `setjmp` at the top of `quit`, or
process exit carrying the error code. -/
inductive Flow where
  | ret
  | jump (code : Nat)
  | exit (e : Err)
  deriving DecidableEq, Repr

def rst_catch : Nat := 2

def rst_checkstack : Nat := 4

/-- Model of `catch()`: dispatch on the recorded error code (printing is not
modelled).  err_OK returns at once.  err_CaughtSignal: after `chk(0)`,
SIGSEGV goes to the reset path; any other signal is re-armed and the
handler returns — SIGINT additionally prints a warm-start suggestion
and runs `Leave()` — without any reset.  err_SysCall goes straight to
the reset path.  Every other code, after `chk(0)`, dies for err_NoInput
(exit with the error code) and otherwise resets: `dump()`, `q_reset()`,
flush of the input line, `longjmp( env, rst_catch )`. -/
def catchM (m : M) : M × Flow :=
  match m.err with
  | .OK => (m, .ret)
  | .CaughtSignal =>
      match checkstackM 0 m with
      | (m1, .ok) =>
          if m1.sigval = SIGSEGV then (q_resetM (dumpM m1), .jump rst_catch)
          else if m1.sigval = SIGINT then (LeaveM m1, .ret)
          else (m1, .ret)
      | (m1, _) => (m1, .ret)
  | .SysCall => (q_resetM (dumpM m), .jump rst_catch)
  | _ =>
      match checkstackM 0 m with
      | (m1, .ok) =>
          if m1.err = .NoInput then (dumpM m1, .exit m1.err)
          else (q_resetM (dumpM m1), .jump rst_catch)
      | (m1, _) => (m1, .ret)

/-- Model of `sig_hdlr( sig )`: record the signal number, raise err_CaughtSignal
and call `catch()` inline; if `catch` returns, the handler returns to
the interrupted computation. -/
def sig_hdlrM (sig : Int) (m : M) : M × Flow :=
  catchM (err_throwM "sig_hdlr" .CaughtSignal { m with sigval := sig })

/-- Model of `add()`: `chk(2) ; n = pop() ; *tos += n` (`Cell_t` addition, which
wraps). -/
def addM (m : M) : M × Flow :=
  match checkstackM 2 m with
  | (m1, .jmp) => (m1, .jump rst_checkstack)
  | (m1, .fail) => (m1, .ret)
  | (m1, .ok) =>
      let n := m1.mem m1.sp
      let m2 := { m1 with sp := m1.sp - 1 }
      ({ m2 with mem := memWrite m2.mem m2.sp (wrapCell (m2.mem m2.sp + n)) }, .ret)

/-- Model of `dupe()`: `chk(1) ; n = *tos ; push( n )` — the push is unchecked,
there is no overflow test here. -/
def dupeM (m : M) : M × Flow :=
  match checkstackM 1 m with
  | (m1, .jmp) => (m1, .jump rst_checkstack)
  | (m1, .fail) => (m1, .ret)
  | (m1, .ok) =>
      let n := m1.mem m1.sp
      ({ m1 with sp := m1.sp + 1, mem := memWrite m1.mem (m1.sp + 1) n }, .ret)

/-- Model of `divide()`: `chk(2) ; n = pop() ; if( n == 0 ) throw err_DivZero and
return ; *tos /= n` (C division truncates toward zero). -/
def divideM (m : M) : M × Flow :=
  match checkstackM 2 m with
  | (m1, .jmp) => (m1, .jump rst_checkstack)
  | (m1, .fail) => (m1, .ret)
  | (m1, .ok) =>
      let n := m1.mem m1.sp
      let m2 := { m1 with sp := m1.sp - 1 }
      if n = 0 then (err_throwM "divide" .DivZero m2, .ret)
      else ({ m2 with
                mem := memWrite m2.mem m2.sp (wrapCell (Int.tdiv (m2.mem m2.sp) n)) },
            .ret)

/-- Model of `do_loop()` — the `(loop)` primitive.  On entry the return stack
holds, from the top: the threaded next pointer, the loop index, the loop
limit.  The pointer is popped; if index+1 (`Cell_t` addition) is below
the limit the index cell is incremented, the pointer pushed back and 0
pushed on the data stack; otherwise index and limit are dropped, the
pointer pushed back and 1 pushed.  There is no `chk` here. -/
def do_loopM (m : M) : M :=
  let nxt := m.rmem m.rsp
  let m1 := { m with rsp := m.rsp - 1 }
  if wrapCell (m1.rmem m1.rsp + 1) < m1.rmem (m1.rsp - 1) then
    let m2 := { m1 with rmem := memWrite m1.rmem m1.rsp (wrapCell (m1.rmem m1.rsp + 1)) }
    let m3 := { m2 with rsp := m2.rsp + 1, rmem := memWrite m2.rmem (m2.rsp + 1) nxt }
    { m3 with sp := m3.sp + 1, mem := memWrite m3.mem (m3.sp + 1) 0 }
  else
    let m2 := { m1 with rsp := m1.rsp - 2 }
    let m3 := { m2 with rsp := m2.rsp + 1, rmem := memWrite m2.rmem (m2.rsp + 1) nxt }
    { m3 with sp := m3.sp + 1, mem := memWrite m3.mem (m3.sp + 1) 1 }

/-- Model of `do_ploop()` — the `(+loop)` primitive: pops the increment from the
data stack and the threaded pointer from the return stack; an increment
above 0 continues (index += inc, push 0) while index+inc < limit, any
other increment continues while index+inc > limit; otherwise index and
limit are dropped and 1 pushed. -/
def do_ploopM (m : M) : M :=
  let inc := m.mem m.sp
  let m0 := { m with sp := m.sp - 1 }
  let nxt := m0.rmem m0.rsp
  let m1 := { m0 with rsp := m0.rsp - 1 }
  if inc > 0 then
    if wrapCell (m1.rmem m1.rsp + inc) < m1.rmem (m1.rsp - 1) then
      let m2 := { m1 with rmem := memWrite m1.rmem m1.rsp (wrapCell (m1.rmem m1.rsp + inc)) }
      let m3 := { m2 with rsp := m2.rsp + 1, rmem := memWrite m2.rmem (m2.rsp + 1) nxt }
      { m3 with sp := m3.sp + 1, mem := memWrite m3.mem (m3.sp + 1) 0 }
    else
      let m2 := { m1 with rsp := m1.rsp - 2 }
      let m3 := { m2 with rsp := m2.rsp + 1, rmem := memWrite m2.rmem (m2.rsp + 1) nxt }
      { m3 with sp := m3.sp + 1, mem := memWrite m3.mem (m3.sp + 1) 1 }
  else
    if wrapCell (m1.rmem m1.rsp + inc) > m1.rmem (m1.rsp - 1) then
      let m2 := { m1 with rmem := memWrite m1.rmem m1.rsp (wrapCell (m1.rmem m1.rsp + inc)) }
      let m3 := { m2 with rsp := m2.rsp + 1, rmem := memWrite m2.rmem (m2.rsp + 1) nxt }
      { m3 with sp := m3.sp + 1, mem := memWrite m3.mem (m3.sp + 1) 0 }
    else
      let m2 := { m1 with rsp := m1.rsp - 2 }
      let m3 := { m2 with rsp := m2.rsp + 1, rmem := memWrite m2.rmem (m2.rsp + 1) nxt }
      { m3 with sp := m3.sp + 1, mem := memWrite m3.mem (m3.sp + 1) 1 }

/-- The primitives modelled for the dispatch/propagation claims. -/
inductive PrimC where
  | padd | pdivide | pdupe
  deriving DecidableEq, Repr

def runPrim : PrimC → M → M × Flow
  | .padd, m => addM m
  | .pdivide, m => divideM m
  | .pdupe, m => dupeM m

/-- Model of `execute()` dispatching a primitive entry (primitives have a null
`pfa`, so nothing is pushed on the return stack): invoke the entry's
code pointer, then `catch()`.  If the primitive long-jumped instead of
returning, `catch` is reached at the `setjmp` in `quit` instead.  The
entry-pointer pop and tracing output are not modelled. -/
def executeM (p : PrimC) (m : M) : M × Flow :=
  match runPrim p m with
  | (m1, .ret) => catchM m1
  | (m1, f) => (m1, f)

/-! ## The compile loop (claim C1) -/

/-- The compiler-fragment state: the flash cells with `Here` as a cell
index, `String_Data` as a byte address in the arena (growing downward),
the stack of cached strings (most recent first — the byte image below
`String_Data`), the state machine, the error cell, the prompt counter
and the data stack that `push`/`comma` use.  The dictionary-entry
bookkeeping (`nfa`/`cfa`/`pfa` fields, `n_ColonDefs`) and the thrown-by
location are not tracked. -/
structure CM where
  flash : Nat → Int
  here : Nat
  stringData : Int
  strs : List String
  state : FState
  err : Err
  promptVal : Int
  dstack : List Int

/-- Model of `push( x )` in the compiler fragment. -/
def cpush (x : Int) (m : CM) : CM := { m with dstack := x :: m.dstack }

/-- Model of `comma()`: if `freespace()` — `String_Data` minus `Here` in bytes —
exceeds `sizeof(Cell_t) = 8`, store the popped value at `Here++`,
otherwise raise err_NoSpace leaving the argument on the stack.  Its
`chk(1)` cannot fail inside the compile loop, where every `comma` is
preceded by a `push`; the empty case is mapped to the raised underflow
code. -/
def commaM (m : CM) : CM :=
  match m.dstack with
  | [] => { m with err := .StackUdr }
  | v :: rest =>
      if m.stringData - 8 * (m.here : Int) > 8 then
        { m with flash := fun i => if i = m.here then v else m.flash i,
                 here := m.here + 1, dstack := rest }
      else { m with err := .NoSpace }

/-- Model of `str_cache( s )`: copy `s` (its length plus a NUL) to just below
`String_Data`. -/
def str_cacheM (s : String) (m : CM) : CM :=
  { m with stringData := m.stringData - ((s.length : Int) + 1), strs := s :: m.strs }

/-- Model of `str_uncache( String_Data )` as called by the rollback: advance
`String_Data` by `str_length` of the most recent cached string plus its
terminator.  With no tracked strings the sealed boot image below the
low-water mark is not modelled and nothing moves. -/
def str_uncacheM (m : CM) : CM :=
  match m.strs with
  | [] => m
  | s :: rest =>
      { m with stringData := m.stringData + ((s.length : Int) + 1), strs := rest }

/-- One compile-loop token, pre-classified by `lookup`: `;`; a
dictionary word with the Normal flag (`id` standing for the entry
pointer that `comma` appends); a token not found in the dictionary,
handed to `str_literal`; or the Immediate word `"` together with the
text that `str_delimited` collects up to the closing quote. -/
inductive CTok where
  | semi
  | word (id : Int)
  | num (s : String)
  | quo (s : String)
  deriving DecidableEq, Repr

/-- Stand-in for the dictionary pointer `lookup( "(literal)" )`. -/
def litId : Int := 0x11717

/-- Model of `semicolon()`: outside Compiling raise err_BadState and return;
otherwise append a null terminator cell, drop the prompt level and
return to Interactive. -/
def semicolonM (m : CM) : CM :=
  if m.state ≠ .Compiling then { m with err := .BadState }
  else
    let m1 := commaM (cpush 0 m)
    { m1 with promptVal := m1.promptVal - 1, state := .Interactive }

/-- Model of `pad()` = `here() ; push( 20 ) ; cells() ; add()`: the scratch byte
address 20 cells above `Here` where `str_delimited` collects text. -/
def padAddr (m : CM) : Int := 8 * (m.here : Int) + 160

/-- The Immediate word `"` (quote) as the compile loop executes it:
`str_delimited` leaves the collected text at `pad` — scratch bytes above
`Here` which nothing below reads — and its address is pushed; in
Compiling state `ssave()` pops it and caches the text, pushing the new
`String_Data`, and `(literal)` plus that address are appended. -/
def quoteM (s : String) (m : CM) : CM :=
  let m1 := cpush (padAddr m) m
  if m1.state = .Compiling then
    let m2 := match m1.dstack with
              | _ :: rest => str_cacheM s { m1 with dstack := rest }
              | [] => str_cacheM s m1
    let m3 := cpush m2.stringData m2
    commaM (commaM (cpush litId m3))
  else m1

/-- The token loop of `compile()`, with `save` the local `save = Here`
captured on entry.  `;` runs `semicolon` and breaks.  A found Normal
word is appended (an Immediate state would `execute` it instead — that
general case is outside this fragment, whose runs keep the state at
Compiling).  A token not found is parsed by `str_literal` at the global
`Base`; if the error cell is non-OK afterwards — either because the
parse threw or because an earlier `comma` did — the definition is
rolled back: uncache one string, restore `Here` to `save`, switch the
state to Interpret, raise err_BadString and return.  A parsed value is
appended as `(literal)` + value unless the state is Immediate. -/
def compileLoopM (base : Int) (save : Nat) : List CTok → CM → CM
  | [], m => m
  | .semi :: _, m => semicolonM m
  | .word id :: ts, m =>
      if m.state = .Immediate then m
      else compileLoopM base save ts (commaM (cpush id m))
  | .num s :: ts, m =>
      match str_literalM s.toList base with
      | .error e =>
          let m2 := str_uncacheM { m with err := e }
          { m2 with here := save, state := .Interpret, err := .BadString }
      | .ok v =>
          if m.err ≠ .OK then
            let m2 := str_uncacheM m
            { m2 with here := save, state := .Interpret, err := .BadString }
          else
            let m2 := cpush v m
            if m2.state ≠ .Immediate then
              compileLoopM base save ts (commaM (commaM (cpush litId m2)))
            else compileLoopM base save ts m2
  | .quo s :: ts, m => compileLoopM base save ts (quoteM s m)

/-- Model of `compile()`: set the newest entry's code field to `doColon` (entry
bookkeeping untracked), bump the prompt and run the token loop with
`save = Here`. -/
def compileM (base : Int) (toks : List CTok) (m : CM) : CM :=
  compileLoopM base m.here toks { m with promptVal := m.promptVal + 1 }

/-- Model of `create()` = `word() ; lambda()`: cache the name read from the input
as the new entry's `nfa` (the entry fields themselves are bookkeeping
outside this fragment; neither moves `Here`). -/
def createM (name : String) (m : CM) : CM := str_cacheM name m

/-- Model of `colon()`: `state = state_Compiling ; create() ; compile()`. -/
def colonM (base : Int) (name : String) (toks : List CTok) (m : CM) : CM :=
  compileM base toks (createM name { m with state := .Compiling })

/-! ## The -x command line flag (claim C8) -/

/-- Events observable in a run of `main` + `quit`: executing the `-x`
word, reading a token from the `-i` input source, printing the banner. -/
inductive XEv where
  | xexec (w : String)
  | xread (t : String)
  | xbanner
  deriving DecidableEq, Repr

/-- Model of `Eof()` for the `-i` source (input-stack index 1 > 0): close and pop
the source, then execute the `-x` word only if `do_x_Once` is still
set. -/
def eofEvents (xWord : Option String) (doXOnce : Bool) : List XEv :=
  match xWord with
  | some w => if doXOnce then [XEv.xexec w] else []
  | none => []

/-- The event trace of `main()` on the hosted build: `chk_args` records
the flags; `-i` pushes its file onto the input stack (reading nothing);
then, if `-x` was given, `do_x_Once` is cleared and the word is looked
up and executed at once; `banner()`; then `quit()` reads the pushed
source's tokens until a zero-length read yields `<eof>`, whose
dictionary entry runs `Eof()`.  Reads from the remaining stdin source
after that are beyond the trace. -/
def mainEvents (iFile : Option String) (xWord : Option String)
    (toks : List String) : List XEv :=
  let startup := match xWord with
                 | some w => [XEv.xexec w]
                 | none => []
  let doXOnce := match xWord with
                 | some _ => false
                 | none => true
  startup ++ [XEv.xbanner] ++
    (match iFile with
     | some _ => toks.map XEv.xread ++ eofEvents xWord doXOnce
     | none => [])

/-! ## save / unsave (claim C9) -/

/-- The text of the C string starting at some address: its bytes up to
the first NUL. -/
def strAtM (bytes : List Nat) : List Nat := bytes.takeWhile (fun b => b ≠ 0)

/-- Model of `str_match( a, b, len )`: 1 exactly when both strings have length
`len` and the `len`-byte comparison loop finds no mismatch (for two
length-`len` strings that loop is equality of the texts). -/
def str_matchM (a b : List Nat) (len : Nat) : Bool :=
  if a.length = len ∧ b.length = len then decide (a = b) else false

/-- Model of `isMatch( x, y )` = `str_match( x, y, MaxStr( x, y ) )`. -/
def isMatchM (a b : List Nat) : Bool :=
  str_matchM a b (max a.length b.length)

/-- The string-heap fragment for `unsave`: `sd` is the `String_Data`
byte address and `heap` the bytes of the arena from that address upward
— the most recently cached string comes first, NUL-terminated. -/
structure SM where
  sd : Int
  heap : List Nat
  err : Err
  deriving DecidableEq, Repr

/-- Model of `unssave()`: pop the tag (given here by its text) and compare it —
`isMatch( tag, String_Data+2 )` — with the text two bytes above
`String_Data`; on a match `str_uncache( tag )` advances `String_Data`
by `str_length( tag ) + 1`, otherwise err_Unsave is raised and
`String_Data` stays put. -/
def unssaveM (tag : List Nat) (m : SM) : SM :=
  if isMatchM tag (strAtM (m.heap.drop 2)) then
    { m with sd := m.sd + ((tag.length : Int) + 1), heap := m.heap.drop (tag.length + 1) }
  else { m with err := .Unsave }

/-! ## The circular temp-buffer queue (claim C10) -/

/-- Model of `Cir_Queue_t`, with `mem` the backing `tmp_buffer` byte array. -/
structure CQ where
  cq_memsize : Nat
  cq_n_elements : Nat
  cq_chunksize : Nat
  cq_next : Nat
  mem : Nat → Nat

/-- Model of `tb_create( &T, tmp_buffer, size, n_elements )`: a size above
`CQ_MAX_BUFFER` (65535) or fewer than `CQ_MIN_CHUNKS` (1) chunks
returns the queue unfilled (modelled as `none`); otherwise the memory is
zeroed and the fields set, with chunk size `size / n_elements` and next
index 0. -/
def tb_createM (size n_elements : Nat) : Option CQ :=
  if size > 65535 then none
  else if n_elements < 1 then none
  else some { cq_memsize := size, cq_n_elements := n_elements,
              cq_chunksize := size / n_elements, cq_next := 0,
              mem := fun _ => 0 }

/-- Model of `tb_get( CQ )`: `ix = cq_next++`, wrapped back to 0 once the
incremented index reaches `cq_n_elements`; the chunk at byte offset
`ix * cq_chunksize` is zero-filled (`str_set`) and returned. -/
def tb_getM (q : CQ) : Nat × CQ :=
  let ix := q.cq_next
  let nxt := if q.cq_next + 1 < q.cq_n_elements then q.cq_next + 1 else 0
  let off := ix * q.cq_chunksize
  (off, { q with
            cq_next := nxt,
            mem := fun a => if off ≤ a ∧ a < off + q.cq_chunksize then 0 else q.mem a })

/-- Iterated `tb_get`, discarding the returned chunks. -/
def tb_getN : Nat → CQ → CQ
  | 0, q => q
  | k + 1, q => tb_getN k (tb_getM q).2

/-! ## Concrete machines used by witnesses and counterexamples -/

/-- A machine immediately after `q_reset` with empty stacks and zeroed
memories. -/
def mZero : M :=
  { sp := 0, mem := fun _ => 0, rsp := 0, rmem := fun _ => 0,
    base := 10, promptVal := 0, trace := 0, state := .Interactive,
    err := .OK, errLoc := "", sigval := 0, tbNext := 0 }

/-- A compiler-fragment machine at the outer interpreter with an empty
arena: `Here` at flash cell 0 and `String_Data` at byte 900. -/
def cmZero : CM :=
  { flash := fun _ => -1, here := 0, stringData := 900, strs := [],
    state := .Interactive, err := .OK, promptVal := 0, dstack := [] }

/-- A machine inside `do`..`loop`: threaded pointer 100, index 5,
limit 8 on the return stack. -/
def mLoopGo : M :=
  { mZero with
      rsp := 3,
      rmem := fun x => if x = 3 then 100 else if x = 2 then 5 else if x = 1 then 8 else 0 }

/-- The same loop at index 7, one increment from the limit 8. -/
def mLoopEnd : M :=
  { mZero with
      rsp := 3,
      rmem := fun x => if x = 3 then 100 else if x = 2 then 7 else if x = 1 then 8 else 0 }

/-- A legally full data stack (depth `sz_STACK` = 32) of sevens. -/
def mFull : M := { mZero with sp := 32, mem := fun _ => 7 }

/-- A data stack of depth 2 holding fives. -/
def mAdd2 : M := { mZero with sp := 2, mem := fun _ => 5 }

/-- A data stack of depth 1. -/
def mUnder : M := { mZero with sp := 1 }

/-- Token membership tests used in the compile-loop claim. -/
def isSemi : CTok → Bool
  | .semi => true
  | _ => false

/-- True for the tokens that neither cache strings nor end the loop:
dictionary words and literal candidates. -/
def isWordOrNum : CTok → Bool
  | .word _ => true
  | .num _ => true
  | _ => false

/-- Event test: is this an execution of the `-x` word? -/
def isExecEv : XEv → Bool
  | .xexec _ => true
  | _ => false

/-- Event test: is this a token read from the input? -/
def isReadEv : XEv → Bool
  | .xread _ => true
  | _ => false

/-! # Theorems -/

/-! ## C10: the circular temp-buffer queue -/

/-- Invariants of iterated `tb_get`: the next index steps by one modulo
the chunk count, and the geometry fields are preserved. -/
theorem tb_getN_invar (k : Nat) (q : CQ) (h8 : q.cq_n_elements = 8)
    (hlt : q.cq_next < 8) :
    (tb_getN k q).cq_next = (q.cq_next + k) % 8 ∧
    (tb_getN k q).cq_n_elements = 8 ∧
    (tb_getN k q).cq_chunksize = q.cq_chunksize := by
  induction k generalizing q with
  | zero =>
      refine ⟨?_, h8, rfl⟩
      simp [tb_getN, Nat.mod_eq_of_lt hlt]
  | succ k ih =>
      have h2 : (tb_getM q).2.cq_n_elements = 8 := by simp [tb_getM, h8]
      have h3 : (tb_getM q).2.cq_next = (q.cq_next + 1) % 8 := by
        simp only [tb_getM, h8]
        split <;> omega
      have h4 : (tb_getM q).2.cq_next < 8 := by
        rw [h3]; exact Nat.mod_lt _ (by omega)
      have h5 : (tb_getM q).2.cq_chunksize = q.cq_chunksize := by
        simp [tb_getM]
      have ih2 := ih (tb_getM q).2 h2 h4
      refine ⟨?_, ih2.2.1, ?_⟩
      · show (tb_getN k (tb_getM q).2).cq_next = (q.cq_next + (k + 1)) % 8
        rw [ih2.1, h3]
        omega
      · show (tb_getN k (tb_getM q).2).cq_chunksize = q.cq_chunksize
        rw [ih2.2.2, h5]

/-- C10 (confirmed).  On the queue created by
`tb_create(&T, tmp_buffer, 2048, 8)` — 2048 bytes in 8 chunks of 256 —
every `tb_get` returns the chunk at the current next index, zero-fills
it, advances the next index cyclically inside `[0, 8)`, and the same
chunk offset comes back after exactly 8 calls (and not before). -/
theorem C10_temp_buffer (q : CQ) (h8 : q.cq_n_elements = 8)
    (hc : q.cq_chunksize = 256) (hlt : q.cq_next < 8) :
    tb_createM 2048 8 = some ⟨2048, 8, 256, 0, fun _ => 0⟩ ∧
    (tb_getM q).1 = q.cq_next * 256 ∧
    (∀ j, j < 256 → (tb_getM q).2.mem (q.cq_next * 256 + j) = 0) ∧
    (tb_getM q).2.cq_next = (q.cq_next + 1) % 8 ∧
    (tb_getM q).2.cq_next < 8 ∧
    (tb_getN 8 q).cq_next = q.cq_next ∧
    (tb_getM (tb_getN 8 q)).1 = (tb_getM q).1 ∧
    (∀ k, 0 < k → k < 8 → (tb_getN k q).cq_next ≠ q.cq_next) := by
  have h3 : (tb_getM q).2.cq_next = (q.cq_next + 1) % 8 := by
    simp only [tb_getM, h8]
    split <;> omega
  have h8f := tb_getN_invar 8 q h8 hlt
  refine ⟨rfl, by simp [tb_getM, hc], ?_, h3, ?_, ?_, ?_, ?_⟩
  · intro j hj
    simp only [tb_getM, hc]
    rw [if_pos]
    omega
  · rw [h3]; exact Nat.mod_lt _ (by omega)
  · rw [h8f.1]; omega
  · simp only [tb_getM]
    rw [h8f.2.2, hc]
    rw [h8f.1]
    congr 1
    omega
  · intro k hk0 hk8
    rw [(tb_getN_invar k q h8 hlt).1]
    omega

/-- Witness for C10 at a mid-cycle queue (next index 5). -/
theorem C10_witness :
    (tb_getM ⟨2048, 8, 256, 5, fun _ => 0⟩).1 = 1280 ∧
    (tb_getN 8 ⟨2048, 8, 256, 5, fun _ => 0⟩).cq_next = 5 ∧
    (tb_getM ⟨2048, 8, 256, 5, fun _ => 0⟩).2.mem 1300 = 0 := by
  have h := C10_temp_buffer ⟨2048, 8, 256, 5, fun _ => 0⟩ rfl rfl (by decide)
  exact ⟨h.2.1, h.2.2.2.2.2.1, by simpa using h.2.2.1 20 (by decide)⟩

/-! ## C5: the (loop) and (+loop) primitives -/

/-- C5 (confirmed).  With the return stack holding, from the top, the
threaded pointer, the loop index `i = rmem (rsp-1)` and the limit
`n = rmem (rsp-2)`: `(loop)` increments the index and pushes 0 when the
incremented index is still below the limit, otherwise pops index and
limit (leaving the pointer back on top) and pushes 1; `(+loop)` pops a
signed increment from the data stack and continues under strict
less-than for a positive increment and strict greater-than for a
negative one. -/
theorem C5_loop_primitives (m : M) :
    ((wrapCell (m.rmem (m.rsp - 1) + 1) < m.rmem (m.rsp - 2) →
        (do_loopM m).rsp = m.rsp ∧
        (do_loopM m).rmem m.rsp = m.rmem m.rsp ∧
        (do_loopM m).rmem (m.rsp - 1) = wrapCell (m.rmem (m.rsp - 1) + 1) ∧
        (do_loopM m).rmem (m.rsp - 2) = m.rmem (m.rsp - 2) ∧
        (do_loopM m).sp = m.sp + 1 ∧
        (do_loopM m).mem (m.sp + 1) = 0) ∧
     (¬ wrapCell (m.rmem (m.rsp - 1) + 1) < m.rmem (m.rsp - 2) →
        (do_loopM m).rsp = m.rsp - 2 ∧
        (do_loopM m).rmem (m.rsp - 2) = m.rmem m.rsp ∧
        (do_loopM m).sp = m.sp + 1 ∧
        (do_loopM m).mem (m.sp + 1) = 1)) ∧
    ((0 < m.mem m.sp →
        (wrapCell (m.rmem (m.rsp - 1) + m.mem m.sp) < m.rmem (m.rsp - 2) →
           (do_ploopM m).rsp = m.rsp ∧
           (do_ploopM m).rmem m.rsp = m.rmem m.rsp ∧
           (do_ploopM m).rmem (m.rsp - 1) =
             wrapCell (m.rmem (m.rsp - 1) + m.mem m.sp) ∧
           (do_ploopM m).rmem (m.rsp - 2) = m.rmem (m.rsp - 2) ∧
           (do_ploopM m).sp = m.sp ∧
           (do_ploopM m).mem m.sp = 0) ∧
        (¬ wrapCell (m.rmem (m.rsp - 1) + m.mem m.sp) < m.rmem (m.rsp - 2) →
           (do_ploopM m).rsp = m.rsp - 2 ∧
           (do_ploopM m).rmem (m.rsp - 2) = m.rmem m.rsp ∧
           (do_ploopM m).sp = m.sp ∧
           (do_ploopM m).mem m.sp = 1)) ∧
     (m.mem m.sp < 0 →
        (m.rmem (m.rsp - 2) < wrapCell (m.rmem (m.rsp - 1) + m.mem m.sp) →
           (do_ploopM m).rsp = m.rsp ∧
           (do_ploopM m).rmem m.rsp = m.rmem m.rsp ∧
           (do_ploopM m).rmem (m.rsp - 1) =
             wrapCell (m.rmem (m.rsp - 1) + m.mem m.sp) ∧
           (do_ploopM m).rmem (m.rsp - 2) = m.rmem (m.rsp - 2) ∧
           (do_ploopM m).sp = m.sp ∧
           (do_ploopM m).mem m.sp = 0) ∧
        (¬ m.rmem (m.rsp - 2) < wrapCell (m.rmem (m.rsp - 1) + m.mem m.sp) →
           (do_ploopM m).rsp = m.rsp - 2 ∧
           (do_ploopM m).rmem (m.rsp - 2) = m.rmem m.rsp ∧
           (do_ploopM m).sp = m.sp ∧
           (do_ploopM m).mem m.sp = 1))) := by
  have e21 : m.rsp - 1 - 1 = m.rsp - 2 := by ring
  constructor
  · constructor
    · intro h
      refine ⟨?_, ?_, ?_, ?_, ?_, ?_⟩ <;>
        (simp only [do_loopM, memWrite, e21, if_pos h] <;>
          first
          | trivial
          | omega
          | (split_ifs <;> first | trivial | omega | (exfalso; omega)))
    · intro h
      refine ⟨?_, ?_, ?_, ?_⟩ <;>
        (simp only [do_loopM, memWrite, e21, if_neg h] <;>
          first
          | trivial
          | omega
          | (split_ifs <;> first | trivial | omega | (exfalso; omega)))
  · constructor
    · intro hpos
      have hp : m.mem m.sp > 0 := hpos
      constructor
      · intro h
        refine ⟨?_, ?_, ?_, ?_, ?_, ?_⟩ <;>
          (simp only [do_ploopM, memWrite, e21, if_pos hp, if_pos h] <;>
            first
            | trivial
            | omega
            | (split_ifs <;> first | trivial | omega | (exfalso; omega)))
      · intro h
        refine ⟨?_, ?_, ?_, ?_⟩ <;>
          (simp only [do_ploopM, memWrite, e21, if_pos hp, if_neg h] <;>
            first
            | trivial
            | omega
            | (split_ifs <;> first | trivial | omega | (exfalso; omega)))
    · intro hneg
      have hnp : ¬ m.mem m.sp > 0 := by omega
      constructor
      · intro h
        have h2 : wrapCell (m.rmem (m.rsp - 1) + m.mem m.sp) > m.rmem (m.rsp - 2) := h
        refine ⟨?_, ?_, ?_, ?_, ?_, ?_⟩ <;>
          (simp only [do_ploopM, memWrite, e21, if_neg hnp, if_pos h2] <;>
            first
            | trivial
            | omega
            | (split_ifs <;> first | trivial | omega | (exfalso; omega)))
      · intro h
        have h2 : ¬ wrapCell (m.rmem (m.rsp - 1) + m.mem m.sp) > m.rmem (m.rsp - 2) := h
        refine ⟨?_, ?_, ?_, ?_⟩ <;>
          (simp only [do_ploopM, memWrite, e21, if_neg hnp, if_neg h2] <;>
            first
            | trivial
            | omega
            | (split_ifs <;> first | trivial | omega | (exfalso; omega)))

/-- Witness for C5: a loop with pointer 100, index 5, limit 8 on the
return stack continues with index 6, and with index 7 it exits dropping
both cells. -/
theorem C5_witness :
    (do_loopM mLoopGo).rmem 2 = 6 ∧
    (do_loopM mLoopGo).mem 1 = 0 ∧
    (do_loopM mLoopEnd).rsp = 1 ∧
    (do_loopM mLoopEnd).mem 1 = 1 := by
  have h1 := (C5_loop_primitives mLoopGo).1.1
  have h2 := (C5_loop_primitives mLoopEnd).1.2
  refine ⟨?_, ?_, ?_, ?_⟩
  · have := (h1 (by decide)).2.2.1
    simpa [mLoopGo, mZero] using this
  · have := (h1 (by decide)).2.2.2.2.2
    simpa [mLoopGo, mZero] using this
  · have := (h2 (by decide)).1
    simpa [mLoopEnd, mZero] using this
  · have := (h2 (by decide)).2.2.2
    simpa [mLoopEnd, mZero] using this

/-! ## C2: stack bounds at primitive boundaries -/

/-- Unfolding: `checkstack` with `n > 0` on an underfull stack throws
stack-underflow and long-jumps. -/
theorem checkstack_pos_lt (n : Int) (m : M) (hn : n > 0) (h : m.sp < n) :
    checkstackM n m =
      (err_throwM "checkstack" .StackUdr { m with mem := memWrite m.mem (m.sp + 1) m.sp },
       .jmp) := by
  simp only [checkstackM, if_pos hn, if_pos h]

/-- Unfolding: `checkstack` with `n > 0` and enough arguments passes
(leaving the scratch write of `depth()`). -/
theorem checkstack_pos_ge (n : Int) (m : M) (hn : n > 0) (h : ¬ m.sp < n) :
    checkstackM n m =
      ({ m with mem := memWrite m.mem (m.sp + 1) m.sp }, .ok) := by
  simp only [checkstackM, if_pos hn, if_neg h]

/-- Unfolding: `checkstack 0` with the top pointer inside the stack
array passes and changes nothing. -/
theorem checkstack0_ok (m : M) (h0 : 0 ≤ m.sp) (h1 : m.sp ≤ (sz_STACK : Int)) :
    checkstackM 0 m = (m, .ok) := by
  simp only [checkstackM, sz_STACK] at *
  rw [if_neg (by omega), if_neg (by omega), if_neg (by omega)]

/-- Unfolding: `checkstack 0` below the stack base fails with
stack-underflow. -/
theorem checkstack0_udr (m : M) (h : m.sp < 0) :
    checkstackM 0 m = (err_throwM "checkstack" .StackUdr m, .fail) := by
  simp only [checkstackM]
  rw [if_neg (by omega), if_pos h]

/-- Unfolding: `checkstack 0` above the stack ceiling fails with
stack-overflow. -/
theorem checkstack0_ovr (m : M) (h : (sz_STACK : Int) < m.sp) :
    checkstackM 0 m = (err_throwM "checkstack" .StackOvr m, .fail) := by
  simp only [checkstackM, sz_STACK] at *
  rw [if_neg (by omega), if_neg (by omega), if_pos (by omega)]

/-- C2 (corrected).  What the checked build actually guarantees: a
primitive expecting `n > 0` arguments (here `add`, via `chk(2)`) checks
only underflow of its argument count — on failure it raises
err_StackUdr and long-jumps to the outer interpreter with the stack
depth unchanged — and performs no overflow check at all; the full
bounds test `stack_base ≤ tos ≤ stack_base + sz_STACK` runs only in the
primitives that call `chk(0)`, raising err_StackUdr / err_StackOvr and
aborting the primitive with the stack unchanged. -/
theorem C2_stack_bounds_amended (m : M) :
    (m.sp < 2 →
       (addM m).2 = Flow.jump rst_checkstack ∧
       (addM m).1.sp = m.sp ∧ (addM m).1.rsp = m.rsp ∧
       (addM m).1.err = Err.StackUdr) ∧
    (2 ≤ m.sp →
       (addM m).2 = Flow.ret ∧
       (addM m).1.sp = m.sp - 1 ∧
       (addM m).1.err = m.err ∧
       (addM m).1.mem (m.sp - 1) = wrapCell (m.mem (m.sp - 1) + m.mem m.sp)) ∧
    (m.sp < 0 →
       (checkstackM 0 m).2 = ChkRes.fail ∧
       (checkstackM 0 m).1.err = Err.StackUdr ∧
       (checkstackM 0 m).1.sp = m.sp) ∧
    ((sz_STACK : Int) < m.sp →
       (checkstackM 0 m).2 = ChkRes.fail ∧
       (checkstackM 0 m).1.err = Err.StackOvr ∧
       (checkstackM 0 m).1.sp = m.sp) ∧
    (0 ≤ m.sp → m.sp ≤ (sz_STACK : Int) →
       (checkstackM 0 m).2 = ChkRes.ok ∧ (checkstackM 0 m).1 = m) := by
  refine ⟨?_, ?_, ?_, ?_, ?_⟩
  · intro h
    refine ⟨?_, ?_, ?_, ?_⟩ <;>
      (simp only [addM, checkstack_pos_lt 2 m (by norm_num) h, err_throwM] <;>
        first | trivial | omega)
  · intro h
    have hn : ¬ m.sp < 2 := by omega
    refine ⟨?_, ?_, ?_, ?_⟩ <;>
      (simp only [addM, checkstack_pos_ge 2 m (by norm_num) hn, memWrite] <;>
        first
        | trivial
        | omega
        | (split_ifs <;> first | trivial | omega | (exfalso; omega)))
  · intro h
    refine ⟨?_, ?_, ?_⟩ <;>
      simp only [checkstack0_udr m h, err_throwM]
  · intro h
    refine ⟨?_, ?_, ?_⟩ <;>
      simp only [checkstack0_ovr m h, err_throwM]
  · intro h0 h1
    exact ⟨by simp only [checkstack0_ok m h0 h1], by simp only [checkstack0_ok m h0 h1]⟩

/-- Witness for C2: `add` on a stack of depth 1 long-jumps with
stack-underflow and the depth unchanged; on depth 2 with 5 and 5 on top
it returns 10. -/
theorem C2_witness :
    (addM mUnder).2 = Flow.jump rst_checkstack ∧
    (addM mUnder).1.err = Err.StackUdr ∧
    (addM mAdd2).1.mem 1 = 10 := by
  have h1 := (C2_stack_bounds_amended mUnder).1 (by decide)
  have h2 := (C2_stack_bounds_amended mAdd2).2.1 (by decide)
  refine ⟨h1.1, h1.2.2.2, ?_⟩
  have := h2.2.2.2
  simpa [mAdd2, mZero] using this

/-! ## C3: the state catch leaves behind -/

/-- C3 (corrected).  For every error code other than err_OK,
err_NoInput and err_CaughtSignal (with the top pointer inside the stack
array so that the `chk(0)` in `catch` passes), `catch` takes the reset
path: it long-jumps `rst_catch` back into `quit` leaving both stacks
empty, `BASE = 10`, state Interactive, the error code cleared and the
trace flag preserved.  err_CaughtSignal is genuinely excluded: for
SIGSEGV the same reset runs (the process does not terminate), while for
every other signal `catch` returns with stacks, base and state
untouched.  Helper first: the reset equation for `catch`. -/
theorem catch_resets (m : M) (h1 : m.err ≠ Err.OK) (h2 : m.err ≠ Err.NoInput)
    (h3 : m.err ≠ Err.CaughtSignal) (h4 : 0 ≤ m.sp) (h5 : m.sp ≤ (sz_STACK : Int)) :
    catchM m = (q_resetM (dumpM m), Flow.jump rst_catch) := by
  have hok := checkstack0_ok m h4 h5
  cases herr : m.err <;> simp_all [catchM]

/-- C3 (corrected), main theorem: see the section comment above. -/
theorem C3_catch_reset_amended (m : M) (h1 : m.err ≠ Err.OK)
    (h2 : m.err ≠ Err.NoInput) (h3 : m.err ≠ Err.CaughtSignal)
    (h4 : 0 ≤ m.sp) (h5 : m.sp ≤ (sz_STACK : Int)) :
    (catchM m).2 = Flow.jump rst_catch ∧
    (catchM m).1.sp = 0 ∧ (catchM m).1.rsp = 0 ∧
    (catchM m).1.base = 10 ∧ (catchM m).1.state = FState.Interactive ∧
    (catchM m).1.err = Err.OK ∧ (catchM m).1.trace = m.trace := by
  rw [catch_resets m h1 h2 h3 h4 h5]
  exact ⟨rfl, rfl, rfl, rfl, rfl, rfl, rfl⟩

/-- Witness for C3: a div-zero error with depth 3, base 16, trace 7 in
Compiling state resets to empty stacks, base 10, Interactive, trace
preserved. -/
theorem C3_witness :
    (catchM { mZero with sp := 3, base := 16, trace := 7, state := FState.Compiling, err := Err.DivZero }).2 = Flow.jump rst_catch ∧
    (catchM { mZero with sp := 3, base := 16, trace := 7, state := FState.Compiling, err := Err.DivZero }).1.sp = 0 ∧
    (catchM { mZero with sp := 3, base := 16, trace := 7, state := FState.Compiling, err := Err.DivZero }).1.base = 10 ∧
    (catchM { mZero with sp := 3, base := 16, trace := 7, state := FState.Compiling, err := Err.DivZero }).1.trace = 7 := by
  have h := C3_catch_reset_amended
    { mZero with sp := 3, base := 16, trace := 7, state := FState.Compiling, err := Err.DivZero }
    (by decide) (by decide) (by decide) (by decide) (by decide)
  exact ⟨h.1, h.2.1, h.2.2.2.1, h.2.2.2.2.2.2⟩

/-- Counterexample to C3 as stated: a caught SIGINT (an error other
than no-input and SIGSEGV) is handled by `catch` and control returns to
the interpreter, yet the data stack keeps depth 5, the base stays 16
and the state stays Compiling — nothing was reset. -/
theorem C3_counterexample :
    (catchM { mZero with sp := 5, base := 16, state := FState.Compiling, err := Err.CaughtSignal, sigval := 2 }).2 = Flow.ret ∧
    ¬ ((catchM { mZero with sp := 5, base := 16, state := FState.Compiling, err := Err.CaughtSignal, sigval := 2 }).1.sp = 0 ∧
       (catchM { mZero with sp := 5, base := 16, state := FState.Compiling, err := Err.CaughtSignal, sigval := 2 }).1.base = 10 ∧
       (catchM { mZero with sp := 5, base := 16, state := FState.Compiling, err := Err.CaughtSignal, sigval := 2 }).1.state = FState.Interactive) := by
  refine ⟨rfl, by decide⟩

/-! ## C7: SIGINT handling -/

/-- C7 (corrected).  A delivered SIGINT does not perform a warm reset:
the handler records the signal and err_CaughtSignal, `catch` prints a
warm-start *suggestion*, re-arms the handler, zeroes the top
return-stack cell (`Leave()`) and returns to the interrupted
computation — no stack clearing, no state change, no long-jump.  (The
hypotheses keep the `chk(0)` inside `catch` passing, as on any legal
stack.)  Helper first: `catch` on a recorded SIGINT returns after
`Leave()`. -/
theorem catch_sigint (m : M) (herr : m.err = Err.CaughtSignal)
    (hs : m.sigval = SIGINT) (h4 : 0 ≤ m.sp) (h5 : m.sp ≤ (sz_STACK : Int)) :
    catchM m = (LeaveM m, Flow.ret) := by
  have hok := checkstack0_ok m h4 h5
  simp [catchM, herr, hok, hs, SIGINT, SIGSEGV]

/-- C7 (corrected), main theorem: see the section comment. -/
theorem C7_sigint_amended (m : M) (h4 : 0 ≤ m.sp) (h5 : m.sp ≤ (sz_STACK : Int)) :
    (sig_hdlrM SIGINT m).2 = Flow.ret ∧
    (sig_hdlrM SIGINT m).1.sp = m.sp ∧
    (sig_hdlrM SIGINT m).1.rsp = m.rsp ∧
    (sig_hdlrM SIGINT m).1.base = m.base ∧
    (sig_hdlrM SIGINT m).1.state = m.state ∧
    (sig_hdlrM SIGINT m).1.err = Err.CaughtSignal ∧
    (sig_hdlrM SIGINT m).1.sigval = SIGINT ∧
    (0 < m.rsp → (sig_hdlrM SIGINT m).1.rmem m.rsp = 0) := by
  have hc := catch_sigint (err_throwM "sig_hdlr" Err.CaughtSignal { m with sigval := SIGINT })
    rfl rfl (by simpa [err_throwM] using h4) (by simpa [err_throwM] using h5)
  have hs : sig_hdlrM SIGINT m =
      (LeaveM (err_throwM "sig_hdlr" Err.CaughtSignal { m with sigval := SIGINT }),
       Flow.ret) := by
    rw [sig_hdlrM, hc]
  refine ⟨?_, ?_, ?_, ?_, ?_, ?_, ?_, ?_⟩ <;>
    (simp only [hs, LeaveM, err_throwM, memWrite] <;>
      first
      | trivial
      | omega
      | (split_ifs <;> first | trivial | omega | (exfalso; omega) | simp [memWrite])
      | (intro h; split_ifs <;>
          first | trivial | omega | (exfalso; omega) | simp [memWrite]))

/-- Witness for C7: SIGINT delivered with depth 4, Compiling state and
one return-stack cell: the handler returns, depth and state survive and
the return-stack top is zeroed. -/
theorem C7_witness :
    (sig_hdlrM SIGINT { mZero with sp := 4, state := FState.Compiling, rsp := 1, rmem := fun _ => 9 }).2 = Flow.ret ∧
    (sig_hdlrM SIGINT { mZero with sp := 4, state := FState.Compiling, rsp := 1, rmem := fun _ => 9 }).1.sp = 4 ∧
    (sig_hdlrM SIGINT { mZero with sp := 4, state := FState.Compiling, rsp := 1, rmem := fun _ => 9 }).1.state = FState.Compiling ∧
    (sig_hdlrM SIGINT { mZero with sp := 4, state := FState.Compiling, rsp := 1, rmem := fun _ => 9 }).1.rmem 1 = 0 := by
  have h := C7_sigint_amended
    { mZero with sp := 4, state := FState.Compiling, rsp := 1, rmem := fun _ => 9 }
    (by decide) (by decide)
  exact ⟨h.1, h.2.1, h.2.2.2.2.1, h.2.2.2.2.2.2.2 (by decide)⟩

/-- Counterexample to C7 as stated: after SIGINT the machine has not
been warm-reset — the handler returned (no long-jump), the data stack
still has depth 4 and the state is still Compiling. -/
theorem C7_counterexample :
    (sig_hdlrM 2 { mZero with sp := 4, state := FState.Compiling }).2 = Flow.ret ∧
    ¬ ((sig_hdlrM 2 { mZero with sp := 4, state := FState.Compiling }).1.sp = 0 ∧
       (sig_hdlrM 2 { mZero with sp := 4, state := FState.Compiling }).1.state = FState.Interactive) ∧
    (sig_hdlrM 2 { mZero with sp := 4, state := FState.Compiling }).2 ≠ Flow.jump rst_catch := by
  refine ⟨rfl, by decide, by decide⟩

/-- Counterexample to C2 as stated: `dup` on a legally full stack
(depth `sz_STACK` = 32) raises nothing and leaves the top pointer at
depth 33, past `stack_base + capacity`, at the primitive boundary. -/
theorem C2_counterexample :
    (dupeM mFull).2 = Flow.ret ∧
    (dupeM mFull).1.sp = 33 ∧
    (dupeM mFull).1.err = Err.OK ∧
    ¬ (dupeM mFull).1.sp ≤ (sz_STACK : Int) := by
  refine ⟨rfl, rfl, rfl, by decide⟩

/-! ## C6: error signalling and propagation -/

/-- C6 (corrected).  `err_throw` only records: it sets the error code
and the thrown-by location (formatted into a scratch chunk, advancing
the temp-queue index) and leaves every other component of the state
alone, returning to its caller; a primitive that throws — here `divide`
on a zero divisor — returns normally, and the error takes effect at the
next `catch`, which `execute` runs after the dispatch (shown by the
third part: the erroring dispatch ends in the catch reset).  The
exception the original claim misses is the argument-count check: `chk`
on an underfull stack long-jumps at the raise site (see the C2
theorems). -/
theorem C6_error_propagation_amended (m : M) :
    (∀ loc e, (err_throwM loc e m).err = e ∧
       (err_throwM loc e m).errLoc = loc ∧
       (err_throwM loc e m).tbNext = (m.tbNext + 1) % 8 ∧
       (err_throwM loc e m).sp = m.sp ∧
       (err_throwM loc e m).mem = m.mem ∧
       (err_throwM loc e m).rsp = m.rsp ∧
       (err_throwM loc e m).rmem = m.rmem ∧
       (err_throwM loc e m).base = m.base ∧
       (err_throwM loc e m).state = m.state ∧
       (err_throwM loc e m).trace = m.trace ∧
       (err_throwM loc e m).sigval = m.sigval) ∧
    (2 ≤ m.sp → m.mem m.sp = 0 →
       (divideM m).2 = Flow.ret ∧
       (divideM m).1.err = Err.DivZero ∧
       (divideM m).1.sp = m.sp - 1) ∧
    (m.err = Err.OK → 2 ≤ m.sp → m.sp ≤ (sz_STACK : Int) → m.mem m.sp = 0 →
       (executeM PrimC.pdivide m).2 = Flow.jump rst_catch ∧
       (executeM PrimC.pdivide m).1.err = Err.OK ∧
       (executeM PrimC.pdivide m).1.sp = 0 ∧
       (executeM PrimC.pdivide m).1.rsp = 0 ∧
       (executeM PrimC.pdivide m).1.state = FState.Interactive) := by
  have hthrow : ∀ loc e, (err_throwM loc e m).err = e ∧
       (err_throwM loc e m).errLoc = loc ∧
       (err_throwM loc e m).tbNext = (m.tbNext + 1) % 8 ∧
       (err_throwM loc e m).sp = m.sp ∧
       (err_throwM loc e m).mem = m.mem ∧
       (err_throwM loc e m).rsp = m.rsp ∧
       (err_throwM loc e m).rmem = m.rmem ∧
       (err_throwM loc e m).base = m.base ∧
       (err_throwM loc e m).state = m.state ∧
       (err_throwM loc e m).trace = m.trace ∧
       (err_throwM loc e m).sigval = m.sigval := by
    intro loc e
    exact ⟨rfl, rfl, rfl, rfl, rfl, rfl, rfl, rfl, rfl, rfl, rfl⟩
  refine ⟨hthrow, ?_, ?_⟩
  · intro hsp h0
    have hn2 : ¬ m.sp < 2 := by omega
    have hdiv : divideM m =
        (err_throwM "divide" Err.DivZero
          { m with mem := memWrite m.mem (m.sp + 1) m.sp, sp := m.sp - 1 },
         Flow.ret) := by
      simp only [divideM, checkstack_pos_ge 2 m (by norm_num) hn2, memWrite]
      rw [if_neg (by omega : ¬ m.sp = m.sp + 1), h0]
      simp
    rw [hdiv]
    exact ⟨rfl, rfl, rfl⟩
  · intro herr hsp hcap h0
    have hn2 : ¬ m.sp < 2 := by omega
    have hdiv : divideM m =
        (err_throwM "divide" Err.DivZero
          { m with mem := memWrite m.mem (m.sp + 1) m.sp, sp := m.sp - 1 },
         Flow.ret) := by
      simp only [divideM, checkstack_pos_ge 2 m (by norm_num) hn2, memWrite]
      rw [if_neg (by omega : ¬ m.sp = m.sp + 1), h0]
      simp
    have hexec : executeM PrimC.pdivide m = catchM (divideM m).1 := by
      simp only [executeM, runPrim, hdiv]
    have hres := catch_resets (divideM m).1
      (by rw [hdiv]; simp [err_throwM])
      (by rw [hdiv]; simp [err_throwM])
      (by rw [hdiv]; simp [err_throwM])
      (by rw [hdiv]; simp [err_throwM]; omega)
      (by rw [hdiv]; simp [err_throwM]; omega)
    rw [hexec, hres]
    exact ⟨rfl, rfl, rfl, rfl, rfl⟩

/-- Witness for C6: on `mAdd2` with a zero pushed on top, `divide`
records div-zero and returns; dispatching it through `execute` ends in
the catch reset. -/
theorem C6_witness :
    (divideM { mAdd2 with mem := fun x => if x = 2 then 0 else 5 }).2 = Flow.ret ∧
    (divideM { mAdd2 with mem := fun x => if x = 2 then 0 else 5 }).1.err = Err.DivZero ∧
    (executeM PrimC.pdivide { mAdd2 with mem := fun x => if x = 2 then 0 else 5 }).2 =
      Flow.jump rst_catch ∧
    (executeM PrimC.pdivide { mAdd2 with mem := fun x => if x = 2 then 0 else 5 }).1.sp = 0 := by
  have h := C6_error_propagation_amended { mAdd2 with mem := fun x => if x = 2 then 0 else 5 }
  have h2 := h.2.1 (by decide) (by decide)
  have h3 := h.2.2 (by decide) (by decide) (by decide) (by decide)
  exact ⟨h2.1, h2.2.1, h3.1, h3.2.2.1⟩

/-- Counterexample to C6 as stated: the raise is not always a record
and a normal return — `add` on an underfull stack raises
stack-underflow through `checkstack`, which transfers control by
`longjmp( env, rst_checkstack )` instead of returning. -/
theorem C6_counterexample :
    (addM mUnder).1.err = Err.StackUdr ∧
    (addM mUnder).2 ≠ Flow.ret ∧
    (addM mUnder).2 = Flow.jump rst_checkstack := by
  exact ⟨rfl, by decide, rfl⟩

/-! ## C8: the -x command line word -/

/-- C8 (corrected).  With `-x <word>` given, the word is executed
exactly once per run — but at startup, after `-i` merely pushes its
file onto the input stack and before the banner and before any token is
read; nothing runs at end of input, because `main` clears `do_x_Once`,
so the deferred branch in `Eof` never fires. -/
theorem C8_dash_x_amended (iFile : Option String) (w : String) (toks : List String) :
    mainEvents iFile (some w) toks =
      XEv.xexec w :: XEv.xbanner ::
        (match iFile with
         | some _ => toks.map XEv.xread
         | none => []) ∧
    ((mainEvents iFile (some w) toks).filter isExecEv).length = 1 := by
  have hmap : ∀ l : List String, (l.map XEv.xread).filter isExecEv = [] := by
    intro l
    induction l with
    | nil => rfl
    | cons a l ih => simpa [isExecEv] using ih
  cases iFile with
  | none => simp [mainEvents, eofEvents, isExecEv]
  | some f =>
      refine ⟨by simp [mainEvents, eofEvents], ?_⟩
      simp [mainEvents, eofEvents, isExecEv, hmap]

/-- Counterexample to C8 as stated: with `-i t.rf -x w` and two tokens
in the file, the single execution of `w` is the first event, strictly
before the first read — not after the input is drained. -/
theorem C8_counterexample :
    mainEvents (some "t.rf") (some "w") ["a", "b"] =
      [XEv.xexec "w", XEv.xbanner, XEv.xread "a", XEv.xread "b"] ∧
    ((mainEvents (some "t.rf") (some "w") ["a", "b"]).filter isExecEv).length = 1 ∧
    (mainEvents (some "t.rf") (some "w") ["a", "b"]).findIdx isExecEv = 0 ∧
    ¬ ((mainEvents (some "t.rf") (some "w") ["a", "b"]).findIdx isReadEv <
       (mainEvents (some "t.rf") (some "w") ["a", "b"]).findIdx isExecEv) := by
  refine ⟨rfl, rfl, rfl, by decide⟩

/-! ## C4: format / parse round trip -/

/-- wrapCell is the identity on the Cell_t range. -/
theorem wrapCell_eq (x : Int) (h1 : cellMin ≤ x) (h2 : x ≤ cellMax) :
    wrapCell x = x := by
  simp only [wrapCell, cellMin, cellMax] at *
  omega

set_option maxRecDepth 16384 in
/-- Parsing one formatted digit gives the digit back: for d < 36,
`ch_index digits (ch_tolower (ntoaDigitChar d)) = d`. -/
theorem digit_round : ∀ d : Nat, d < 36 →
    ch_index digits (ch_tolower (ntoaDigitChar (d : Int))) = (d : Int) := by
  decide

set_option maxRecDepth 16384 in
/-- A nonzero digit character is none of the literal-switch prefix
characters (digit 0 formats as the character '0' itself). -/
theorem digit_not_special : ∀ d : Nat, d < 36 → d = 0 ∨
    (ntoaDigitChar (d : Int) ≠ '-' ∧ ntoaDigitChar (d : Int) ≠ '+' ∧
     ntoaDigitChar (d : Int) ≠ '$' ∧ ntoaDigitChar (d : Int) ≠ '0') := by
  decide

/-- The literal loop processes an appended suffix after the prefix. -/
theorem literalLoop_append (xs ys : List Char) (b : Int) :
    ∀ acc, literalLoop (xs ++ ys) b acc =
      match literalLoop xs b acc with
      | .error e => .error e
      | .ok r => literalLoop ys b r := by
  induction xs with
  | nil => intro acc; rfl
  | cons c xs ih =>
      intro acc
      simp only [List.cons_append, literalLoop]
      split_ifs with h
      · rfl
      · exact ih _

/-- The digit loop emits at most `fuel` characters. -/
theorem ntoaLoop_len : ∀ (fuel : Nat) (n radix : Int),
    (ntoaLoop fuel n radix).length ≤ fuel := by
  intro fuel
  induction fuel with
  | zero => intro n radix; simp [ntoaLoop]
  | succ fuel ih =>
      intro n radix
      simp only [ntoaLoop]
      split_ifs with h
      · simp
      · simpa using ih (Int.tdiv n radix) radix

/-- Division facts for a nonnegative dividend and a radix of at least
2: remainder and quotient of the truncating C operators. -/
theorem tmod_facts (n radix : Int) (hn : 0 ≤ n) (h2 : 2 ≤ radix) :
    0 ≤ Int.tmod n radix ∧ Int.tmod n radix < radix ∧
    0 ≤ Int.tdiv n radix ∧
    radix * Int.tdiv n radix + Int.tmod n radix = n ∧
    2 * Int.tdiv n radix ≤ n := by
  have hb : (0 : Int) ≤ radix := by omega
  have he : Int.tmod n radix = n % radix := Int.tmod_eq_emod hn hb
  have hd : Int.tdiv n radix = n / radix := Int.tdiv_eq_ediv hn hb
  have h1 : 0 ≤ n % radix := Int.emod_nonneg n (by omega)
  have h2lt : n % radix < radix := Int.emod_lt_of_pos n (by omega)
  have h3 : 0 ≤ n / radix := Int.ediv_nonneg hn hb
  have h4 : radix * (n / radix) + n % radix = n := Int.ediv_add_emod n radix
  have h5 : 2 * (n / radix) ≤ radix * (n / radix) :=
    mul_le_mul_of_nonneg_right h2 h3
  rw [he, hd]
  exact ⟨h1, h2lt, h3, h4, by omega⟩

/-- Inverse lemma: the literal loop applied to the digit loop's output
(reversed, most significant first) recovers the value, for any
nonnegative cell value and radix between 2 and 36. -/
theorem literalLoop_ntoa (radix : Int) (h2 : 2 ≤ radix) (h36 : radix ≤ 36) :
    ∀ (fuel : Nat) (n : Int), 0 ≤ n → n ≤ cellMax → n < 2 ^ fuel →
      literalLoop ((ntoaLoop fuel n radix).reverse) radix 0 = .ok n := by
  intro fuel
  induction fuel with
  | zero =>
      intro n h0 _ hlt
      have h1 : n < 1 := by simpa using hlt
      have hz : n = 0 := by omega
      subst hz
      rfl
  | succ fuel ih =>
      intro n h0 hmax hlt
      obtain ⟨hd0, hdlt, hq0, heq, hq2⟩ := tmod_facts n radix h0 h2
      have hdig : ch_index digits (ch_tolower (ntoaDigitChar (Int.tmod n radix))) =
          Int.tmod n radix := by
        have h := digit_round (Int.tmod n radix).toNat (by omega)
        rwa [Int.toNat_of_nonneg hd0] at h
      have hnobad : ¬ (Int.tmod n radix < 0 ∨ Int.tmod n radix > radix - 1) := by
        omega
      have hminmod : cellMin ≤ Int.tmod n radix := by
        simp only [cellMin]
        omega
      have hmaxmod : Int.tmod n radix ≤ cellMax := by
        simp only [cellMax] at *
        omega
      by_cases hq : Int.tdiv n radix = 0
      · rw [hq, mul_zero, zero_add] at heq
        have hlist : ntoaLoop (fuel + 1) n radix =
            [ntoaDigitChar (Int.tmod n radix)] := by
          simp [ntoaLoop, hq]
        rw [hlist, List.reverse_singleton]
        simp only [literalLoop, hdig]
        rw [if_neg hnobad]
        have hw : wrapCell (wrapCell (0 * radix) + Int.tmod n radix) = n := by
          rw [zero_mul]
          have h00 : wrapCell 0 = 0 := by decide
          rw [h00, zero_add, wrapCell_eq _ hminmod hmaxmod]
          exact heq
        rw [hw]
      · have hq2f : Int.tdiv n radix < 2 ^ fuel := by
          have hp : (2 : Int) ^ (fuel + 1) = 2 ^ fuel * 2 := by ring
          rw [hp] at hlt
          omega
        have hqmax : Int.tdiv n radix ≤ cellMax := by omega
        have ihq := ih (Int.tdiv n radix) hq0 hqmax hq2f
        have hlist : ntoaLoop (fuel + 1) n radix =
            ntoaDigitChar (Int.tmod n radix) ::
              ntoaLoop fuel (Int.tdiv n radix) radix := by
          simp [ntoaLoop, hq]
        rw [hlist, List.reverse_cons, literalLoop_append _ _ _ 0, ihq]
        simp only [literalLoop, hdig]
        rw [if_neg hnobad]
        have hqr : Int.tdiv n radix * radix + Int.tmod n radix = n := by
          rw [mul_comm]
          exact heq
        have hqrnn : 0 ≤ Int.tdiv n radix * radix :=
          mul_nonneg hq0 (by omega)
        have hw1 : wrapCell (Int.tdiv n radix * radix) =
            Int.tdiv n radix * radix := by
          refine wrapCell_eq _ ?_ ?_
          · simp only [cellMin]
            omega
          · simp only [cellMax] at *
            omega
        rw [hw1]
        have hw2 : wrapCell (Int.tdiv n radix * radix + Int.tmod n radix) = n := by
          rw [hqr]
          refine wrapCell_eq n ?_ hmax
          simp only [cellMin]
          omega
        rw [hw2]

/-- Head lemma: for a positive value the most significant formatted
character is a nonzero digit character. -/
theorem ntoaLoop_head (radix : Int) (h2 : 2 ≤ radix) :
    ∀ (fuel : Nat) (n : Int), 0 < n → n < 2 ^ fuel →
      ∃ d : Int, 0 < d ∧ d < radix ∧
        ∃ tail, (ntoaLoop fuel n radix).reverse = ntoaDigitChar d :: tail := by
  intro fuel
  induction fuel with
  | zero =>
      intro n h0 hlt
      exfalso
      have h1 : n < 1 := by simpa using hlt
      omega
  | succ fuel ih =>
      intro n h0 hlt
      obtain ⟨hd0, hdlt, hq0, heq, hq2⟩ := tmod_facts n radix (by omega) h2
      by_cases hq : Int.tdiv n radix = 0
      · rw [hq, mul_zero, zero_add] at heq
        refine ⟨Int.tmod n radix, by omega, hdlt, [], ?_⟩
        have hlist : ntoaLoop (fuel + 1) n radix =
            [ntoaDigitChar (Int.tmod n radix)] := by
          simp [ntoaLoop, hq]
        rw [hlist, List.reverse_singleton]
      · have hq2f : Int.tdiv n radix < 2 ^ fuel := by
          have hp : (2 : Int) ^ (fuel + 1) = 2 ^ fuel * 2 := by ring
          rw [hp] at hlt
          omega
        obtain ⟨d, hd1, hd2, tail, htail⟩ := ih (Int.tdiv n radix) (by omega) hq2f
        refine ⟨d, hd1, hd2, tail ++ [ntoaDigitChar (Int.tmod n radix)], ?_⟩
        have hlist : ntoaLoop (fuel + 1) n radix =
            ntoaDigitChar (Int.tmod n radix) ::
              ntoaLoop fuel (Int.tdiv n radix) radix := by
          simp [ntoaLoop, hq]
        rw [hlist, List.reverse_cons, htail]
        rfl

/-- C4 (corrected).  For every cell value except the minimum
(`-2^63`, whose negation `n = -1 * n` wraps to itself and formats
garbage) and every base in 2..36, formatting with `str_ntoa` (signed,
with the caller's 254-byte budget) and re-parsing the token with
`str_literal` at the same radix returns the value. -/
theorem C4_roundtrip_amended (N b : Int) (hmin : cellMin < N) (hmax : N ≤ cellMax)
    (hb2 : 2 ≤ b) (hb36 : b ≤ 36) :
    ∃ cs, str_ntoaM 254 N b true = Except.ok cs ∧
          str_literalM cs b = Except.ok N := by
  have hb36n : ¬ b > 36 := by omega
  have hlen : ∀ n : Int, ((ntoaLoop 66 n b).length : Int) ≤ 66 := by
    intro n
    exact_mod_cast ntoaLoop_len 66 n b
  have hbig : cellMax < 2 ^ 66 := by norm_num [cellMax]
  rcases le_or_lt 0 N with hpos | hneg
  · have hs : (true && decide (N < 0)) = false := by
      simp [decide_eq_false (by omega : ¬ N < 0)]
    have hfmt : str_ntoaM 254 N b true = Except.ok ((ntoaLoop 66 N b).reverse) := by
      simp only [str_ntoaM, hs, Bool.false_eq_true, if_false]
      rw [if_neg (by have := hlen N; omega)]
    refine ⟨(ntoaLoop 66 N b).reverse, hfmt, ?_⟩
    rcases eq_or_lt_of_le hpos with hz | hp
    · have hz2 : N = 0 := hz.symm
      subst hz2
      have hloop : ntoaLoop 66 0 b = ['0'] := by
        simp [ntoaLoop, Int.zero_tmod, Int.zero_tdiv]
        rfl
      rw [hloop]
      have hsw0 : literalSwitch ['0'] b = (1, 8, []) := by
        simp [literalSwitch]
      rw [List.reverse_singleton]
      simp only [str_literalM, if_neg hb36n, hsw0]
      show Except.ok (wrapCell (0 * 1)) = Except.ok 0
      norm_num [wrapCell]
    · obtain ⟨d, hd1, hd2, tail, htail⟩ :=
        ntoaLoop_head b hb2 66 N hp (by omega)
      have hns := digit_not_special d.toNat (by omega)
      rw [Int.toNat_of_nonneg (by omega : (0 : Int) ≤ d)] at hns
      rcases hns with hz | ⟨hne1, hne2, hne3, hne4⟩
      · exfalso
        omega
      · have hparse := literalLoop_ntoa b hb2 hb36 66 N hpos hmax (by omega)
        rw [htail] at hparse ⊢
        have hsw : literalSwitch (ntoaDigitChar d :: tail) b =
            (1, b, ntoaDigitChar d :: tail) := by
          simp [literalSwitch, hne1, hne2, hne3, hne4]
        simp only [str_literalM, if_neg hb36n, hsw]
        rw [hparse]
        show Except.ok (wrapCell (N * 1)) = Except.ok N
        have hone : wrapCell (N * 1) = N := by
          rw [mul_one]
          exact wrapCell_eq N (by omega) hmax
        rw [hone]
  · have hmag0 : 0 < -N := by omega
    have hmagmax : -N ≤ cellMax := by
      simp only [cellMin, cellMax] at *
      omega
    have hneg1 : wrapCell (-1 * N) = -N := by
      have he : (-1) * N = -N := by ring
      rw [he]
      refine wrapCell_eq (-N) ?_ hmagmax
      simp only [cellMin, cellMax] at *
      omega
    have hs : (true && decide (N < 0)) = true := by
      simp [decide_eq_true hneg]
    have hfmt : str_ntoaM 254 N b true =
        Except.ok ('-' :: (ntoaLoop 66 (-N) b).reverse) := by
      simp only [str_ntoaM, hs, hneg1, if_true]
      rw [if_neg (by have := hlen (-N); omega)]
    refine ⟨'-' :: (ntoaLoop 66 (-N) b).reverse, hfmt, ?_⟩
    have hparse := literalLoop_ntoa b hb2 hb36 66 (-N) (by omega) hmagmax (by omega)
    have hsw : literalSwitch ('-' :: (ntoaLoop 66 (-N) b).reverse) b =
        (-1, b, (ntoaLoop 66 (-N) b).reverse) := by
      simp [literalSwitch]
    simp only [str_literalM, if_neg hb36n, hsw]
    rw [hparse]
    show Except.ok (wrapCell (-N * -1)) = Except.ok N
    have hflip : wrapCell (-N * -1) = N := by
      have he : -N * -1 = N := by ring
      rw [he]
      exact wrapCell_eq N (by omega) hmax
    rw [hflip]

/-- Witness for C4: minus 42 in base 16 formats as "-2a" and parses
back to minus 42; 255 in base 16 round-trips as "ff". -/
theorem C4_witness :
    (∃ cs, str_ntoaM 254 (-42) 16 true = Except.ok cs ∧
           str_literalM cs 16 = Except.ok (-42)) ∧
    (∃ cs, str_ntoaM 254 255 16 true = Except.ok cs ∧
           str_literalM cs 16 = Except.ok 255) := by
  exact ⟨C4_roundtrip_amended (-42) 16 (by decide) (by decide) (by decide) (by decide),
         C4_roundtrip_amended 255 16 (by decide) (by decide) (by decide) (by decide)⟩

set_option maxRecDepth 16384 in
/-- Counterexample to C4 as stated: the minimum cell `-2^63` is
representable in a Cell, but `n = -1 * n` wraps back to `-2^63`, the
digit loop runs on a negative value and emits non-digit characters, and
the re-parse fails with err_BadLiteral instead of returning the
value. -/
theorem C4_counterexample :
    (str_ntoaM 254 cellMin 10 true).bind (fun cs => str_literalM cs 10) =
      Except.error Err.BadLiteral ∧
    (str_ntoaM 254 cellMin 10 true).bind (fun cs => str_literalM cs 10) ≠
      Except.ok cellMin := by
  have h1 : (str_ntoaM 254 cellMin 10 true).bind (fun cs => str_literalM cs 10) =
      Except.error Err.BadLiteral := by rfl
  refine ⟨h1, ?_⟩
  rw [h1]
  intro h
  cases h

/-! ## C9: unsave and the string heap -/

/-! ## C1: colon compilation, semicolon and rollback -/

/-- Steps of the compile loop that keep the machine in Compiling state:
appending a word, compiling a successful literal, the quote word. -/
theorem commaM_state (m : CM) : (commaM m).state = m.state := by
  unfold commaM
  rcases m.dstack with _ | ⟨v, rest⟩ <;> simp <;> split_ifs <;> rfl

theorem commaM_strs (m : CM) :
    (commaM m).strs = m.strs ∧ (commaM m).stringData = m.stringData := by
  unfold commaM
  rcases m.dstack with _ | ⟨v, rest⟩ <;> simp <;> split_ifs <;> exact ⟨rfl, rfl⟩

theorem quoteM_state (s : String) (m : CM) : (quoteM s m).state = m.state := by
  simp only [quoteM, cpush]
  split_ifs with h
  · rw [commaM_state, commaM_state]
    simp [cpush, str_cacheM]
  · rfl

/-- Success path of the compile loop: if the loop reaches `;` (no
earlier `;` in `good`) and the final error cell is clean, the run ended
in `semicolon`, which appended a null cell: the final state is
Interactive and `Here` points one past a zero cell. -/
theorem compileLoop_semi_ok (base : Int) (save : Nat) (rest : List CTok) :
    ∀ (good : List CTok) (mm : CM), (∀ t ∈ good, isSemi t = false) →
      mm.state = FState.Compiling →
      (compileLoopM base save (good ++ CTok.semi :: rest) mm).err = Err.OK →
      (compileLoopM base save (good ++ CTok.semi :: rest) mm).state = FState.Interactive ∧
      1 ≤ (compileLoopM base save (good ++ CTok.semi :: rest) mm).here ∧
      (compileLoopM base save (good ++ CTok.semi :: rest) mm).flash
        ((compileLoopM base save (good ++ CTok.semi :: rest) mm).here - 1) = 0 := by
  intro good
  induction good with
  | nil =>
      intro mm _ hstate herr
      simp only [List.nil_append, compileLoopM] at *
      rw [semicolonM, if_neg (by simp [hstate])] at *
      rcases hsp : decide (mm.stringData - 8 * (mm.here : Int) > 8) with _ | _
      · have hsp2 : ¬ mm.stringData - 8 * (mm.here : Int) > 8 := of_decide_eq_false hsp
        simp [commaM, cpush, hsp2] at herr
      · have hsp2 : mm.stringData - 8 * (mm.here : Int) > 8 := of_decide_eq_true hsp
        simp [commaM, cpush, hsp2]
  | cons t good ih =>
      intro mm hgood hstate herr
      have hgood2 : ∀ u ∈ good, isSemi u = false := fun u hu => hgood u (by simp [hu])
      cases t with
      | semi =>
          have := hgood CTok.semi (by simp)
          simp [isSemi] at this
      | word id =>
          have hni : ¬ mm.state = FState.Immediate := by rw [hstate]; intro h; cases h
          rw [List.cons_append, compileLoopM, if_neg hni] at herr ⊢
          exact ih (commaM (cpush id mm)) hgood2
            (by rw [commaM_state, cpush, hstate]) herr
      | num s =>
          cases hparse : str_literalM s.toList base with
          | error e =>
              rw [List.cons_append] at herr
              simp only [compileLoopM, hparse] at herr
              simp at herr
          | ok v =>
              rw [List.cons_append] at herr ⊢
              simp only [compileLoopM, hparse] at herr ⊢
              by_cases herr0 : mm.err = Err.OK
              · have hnn : ¬ mm.err ≠ Err.OK := by simp [herr0]
                rw [if_neg hnn] at herr ⊢
                have hni : (cpush v mm).state ≠ FState.Immediate := by
                  rw [cpush, hstate]; intro h; cases h
                rw [if_pos hni] at herr ⊢
                refine ih _ hgood2 ?_ herr
                rw [commaM_state, commaM_state, cpush, cpush, hstate]
              · rw [if_pos herr0] at herr
                simp at herr
      | quo s =>
          rw [List.cons_append, compileLoopM] at herr ⊢
          exact ih (quoteM s mm) hgood2 (by rw [quoteM_state, hstate]) herr

/-- Rollback path of the compile loop: from a machine whose most recent
cached string is the definition's name, over tokens that neither cache
nor end the definition, a failing literal (or a pending error cell)
triggers the rollback: `Here` returns to `save`, exactly the name is
uncached so `String_Data` returns to `D`, the state switches to
Interpret and err_BadString is raised. -/
theorem compileLoop_rollback (base : Int) (save : Nat) (s : String) (e : Err)
    (hfail : str_literalM s.toList base = Except.error e) (rest : List CTok) :
    ∀ (good : List CTok) (mm : CM) (name : String) (S : List String) (D : Int),
      (∀ t ∈ good, isWordOrNum t = true) →
      mm.state = FState.Compiling →
      mm.strs = name :: S →
      mm.stringData = D - ((name.length : Int) + 1) →
      (compileLoopM base save (good ++ CTok.num s :: rest) mm).here = save ∧
      (compileLoopM base save (good ++ CTok.num s :: rest) mm).stringData = D ∧
      (compileLoopM base save (good ++ CTok.num s :: rest) mm).strs = S ∧
      (compileLoopM base save (good ++ CTok.num s :: rest) mm).state = FState.Interpret ∧
      (compileLoopM base save (good ++ CTok.num s :: rest) mm).err = Err.BadString := by
  intro good
  induction good with
  | nil =>
      intro mm name S D _ hstate hstrs hsd
      rw [List.nil_append]
      simp only [compileLoopM, hfail]
      simp [str_uncacheM, hstrs, hsd]
  | cons t good ih =>
      intro mm name S D hgood hstate hstrs hsd
      have hgood2 : ∀ u ∈ good, isWordOrNum u = true := fun u hu => hgood u (by simp [hu])
      cases t with
      | semi =>
          have := hgood CTok.semi (by simp)
          simp [isWordOrNum] at this
      | word id =>
          have hni : ¬ mm.state = FState.Immediate := by rw [hstate]; intro h; cases h
          rw [List.cons_append, compileLoopM, if_neg hni]
          exact ih (commaM (cpush id mm)) name S D hgood2
            (by rw [commaM_state, cpush, hstate])
            (by rw [(commaM_strs _).1, cpush, hstrs])
            (by rw [(commaM_strs _).2, cpush, hsd])
      | num s2 =>
          cases hparse : str_literalM s2.toList base with
          | error e2 =>
              rw [List.cons_append]
              simp only [compileLoopM, hparse]
              simp [str_uncacheM, hstrs, hsd]
          | ok v =>
              rw [List.cons_append]
              simp only [compileLoopM, hparse]
              by_cases herr0 : mm.err = Err.OK
              · have hnn : ¬ mm.err ≠ Err.OK := by simp [herr0]
                rw [if_neg hnn]
                have hni : (cpush v mm).state ≠ FState.Immediate := by
                  rw [cpush, hstate]; intro h; cases h
                rw [if_pos hni]
                exact ih _ name S D hgood2
                  (by rw [commaM_state, commaM_state, cpush, cpush, hstate])
                  (by rw [(commaM_strs _).1, (commaM_strs _).1, cpush, cpush, hstrs])
                  (by rw [(commaM_strs _).2, (commaM_strs _).2, cpush, cpush, hsd])
              · rw [if_pos herr0]
                simp [str_uncacheM, hstrs, hsd]
      | quo s2 =>
          have := hgood (CTok.quo s2) (by simp)
          simp [isWordOrNum] at this

/-- C1 (corrected).  For a colon definition `: name …`: (success) after
a `;` reached with a clean error cell, the state is back to Interactive
and `Here` points one cell past an appended null terminator; (rollback)
when the compile loop hits a failing literal and no token before it
cached a string (tokens are dictionary words or literals), `Here` and
`String_Data` are restored to their values at the `:`, exactly one
string — the definition's name — is uncached, the state switches to
Interpret and err_BadString is raised.  The restriction on the rollback
half is necessary: see the counterexample, where a string literal
compiled before the failure leaves `String_Data` two bytes short. -/
theorem C1_colon_compile_amended (base : Int) (name : String) (m : CM) :
    (∀ good rest, (∀ t ∈ good, isSemi t = false) →
       (colonM base name (good ++ CTok.semi :: rest) m).err = Err.OK →
       (colonM base name (good ++ CTok.semi :: rest) m).state = FState.Interactive ∧
       1 ≤ (colonM base name (good ++ CTok.semi :: rest) m).here ∧
       (colonM base name (good ++ CTok.semi :: rest) m).flash
         ((colonM base name (good ++ CTok.semi :: rest) m).here - 1) = 0) ∧
    (∀ good s rest e, (∀ t ∈ good, isWordOrNum t = true) →
       str_literalM s.toList base = Except.error e →
       (colonM base name (good ++ CTok.num s :: rest) m).here = m.here ∧
       (colonM base name (good ++ CTok.num s :: rest) m).stringData = m.stringData ∧
       (colonM base name (good ++ CTok.num s :: rest) m).strs = m.strs ∧
       (colonM base name (good ++ CTok.num s :: rest) m).state = FState.Interpret ∧
       (colonM base name (good ++ CTok.num s :: rest) m).err = Err.BadString) := by
  constructor
  · intro good rest hgood
    intro herr
    exact compileLoop_semi_ok base m.here rest good _ hgood rfl herr
  · intro good s rest e hgood hfail
    have h := compileLoop_rollback base m.here s e hfail rest good
      { m with
          state := FState.Compiling,
          strs := name :: m.strs,
          stringData := m.stringData - ((name.length : Int) + 1),
          promptVal := m.promptVal + 1 }
      name m.strs m.stringData hgood rfl rfl rfl
    exact h

set_option maxRecDepth 8192 in
/-- Witness for C1: compiling `: sq <word 5> ;` in an empty arena ends
Interactive with a null cell under `Here`; compiling `: f 9z ;` rolls
back `Here` and `String_Data` to their initial values and raises
bad-string. -/
theorem C1_witness :
    (colonM 10 "sq" [CTok.word 5, CTok.semi] cmZero).state = FState.Interactive ∧
    (colonM 10 "sq" [CTok.word 5, CTok.semi] cmZero).flash
      ((colonM 10 "sq" [CTok.word 5, CTok.semi] cmZero).here - 1) = 0 ∧
    (colonM 10 "f" [CTok.num "9z", CTok.semi] cmZero).here = cmZero.here ∧
    (colonM 10 "f" [CTok.num "9z", CTok.semi] cmZero).stringData = cmZero.stringData ∧
    (colonM 10 "f" [CTok.num "9z", CTok.semi] cmZero).err = Err.BadString := by
  have hA := (C1_colon_compile_amended 10 "sq" cmZero).1 [CTok.word 5] []
    (by decide) (by decide)
  have hB := (C1_colon_compile_amended 10 "f" cmZero).2 [] "9z" [CTok.semi]
    Err.BadLiteral (by decide) (by rfl)
  exact ⟨hA.1, hA.2.2, hB.1, hB.2.1, hB.2.2.2.2⟩

set_option maxRecDepth 8192 in
/-- Counterexample to C1 as stated: in `: f " ab" 9z …` the literal
failure rolls back, but `str_uncache` releases only the most recent
cache — the text of the string literal — so `String_Data` ends at 898,
two bytes below its value 900 at the `:` (the name "f" stays cached);
`HERE` is restored. -/
theorem C1_counterexample :
    (colonM 10 "f" [CTok.quo "ab", CTok.num "9z"] cmZero).here = cmZero.here ∧
    (colonM 10 "f" [CTok.quo "ab", CTok.num "9z"] cmZero).err = Err.BadString ∧
    (colonM 10 "f" [CTok.quo "ab", CTok.num "9z"] cmZero).stringData = 898 ∧
    ¬ (colonM 10 "f" [CTok.quo "ab", CTok.num "9z"] cmZero).stringData =
        cmZero.stringData := by
  refine ⟨by decide, by decide, by decide, by decide⟩

/-- C9 (code bug).  The spec says `unsave` succeeds exactly on the most
recently cached string; the code compares the tag against
`String_Data+2` — two bytes *into* the top string — so un-saving the
top of the string heap throws err_Unsave.  Here the heap holds "ab"
(most recent) then "c"; the tag is exactly the most recent string, the
claim says the call succeeds and advances `String_Data` by 3, yet the
code raises err_Unsave and moves nothing.  The first conjunct pins down
that the tag is the top-of-heap string; the last two show the
divergence. -/
theorem C9_unsave_bug :
    strAtM (⟨100, [97, 98, 0, 99, 0], Err.OK⟩ : SM).heap = [97, 98] ∧
    unssaveM [97, 98] ⟨100, [97, 98, 0, 99, 0], Err.OK⟩ =
      ⟨100, [97, 98, 0, 99, 0], Err.Unsave⟩ ∧
    (unssaveM [97, 98] ⟨100, [97, 98, 0, 99, 0], Err.OK⟩).sd = 100 := by
  refine ⟨rfl, ?_, ?_⟩ <;> decide

end OFF
